import Mathlib

/-!
A shallow embedding of `build.py`, the single-file build script of the
libralm_dxt repository, together with proofs of its specified properties.

The filesystem is modelled as a finite set of entries, each an absolute-from-
the-original-working-directory path (a list of name components) tagged with a
directory flag.  Console output is not modelled.  External subprocesses
(`node --version`, `npm install --production`) are modelled as oracles that
say how the subprocess behaved; on success the npm oracle also supplies the
tree of entries it installed (relative to the staging directory).  Python
exceptions are modelled by an explicit outcome type: `SystemExit` (raised by
`sys.exit`) is distinguished from ordinary `Exception`s because `main`'s
`except Exception` clause catches only the latter.
-/

namespace Build

/-- A filesystem path, as a list of name components relative to the original
working directory of the script. -/
abbrev FilePathM := List String

/-- One filesystem entry: its path and whether it is a directory. -/
structure Entry where
  path : FilePathM
  isDir : Bool
deriving DecidableEq, Repr

/-- The filesystem: a finite set of entries.  A real filesystem holds at most
one entry per path, so membership of a path models "exactly one such entry". -/
abbrev FS := Finset Entry

/-- Model of `os.path.exists(p)`: some entry (file or directory) has exactly path `p`. -/
def fsExists (fs : FS) (p : FilePathM) : Bool :=
  (fs.filter (fun e => e.path = p)).Nonempty

/-- Model of `shutil.rmtree(p)`: remove the subtree rooted at `p` (every entry whose
path has `p` as a prefix, the root included). -/
def rmtreeFS (fs : FS) (p : FilePathM) : FS :=
  fs.filter (fun e => ¬ p.isPrefixOf e.path)

/-- Model of `os.remove(p)`: remove the regular file at `p`. -/
def removeFileFS (fs : FS) (p : FilePathM) : FS :=
  fs.erase ⟨p, false⟩

/-- The staging directory `bundle`. -/
def bundleDir : FilePathM := ["bundle"]

/-- The output archive `libralm.dxt`. -/
def dxtPath : FilePathM := ["libralm.dxt"]

/-- The installed-dependency tree `bundle/node_modules`. -/
def nodeModulesDir : FilePathM := ["bundle", "node_modules"]

/-- Embeds `clean_build`: remove the staging directory if it exists, then the
previous archive if it exists. -/
def clean_build (fs : FS) : FS :=
  let fs1 := if fsExists fs bundleDir then rmtreeFS fs bundleDir else fs
  if fsExists fs1 dxtPath then removeFileFS fs1 dxtPath else fs1

/-- Embeds `create_bundle_dir`: `os.makedirs("bundle", exist_ok=True)`. -/
def create_bundle_dir (fs : FS) : FS :=
  insert ⟨bundleDir, true⟩ fs

/-- The fixed allow-list of `copy_source_files`. -/
def files_to_copy : List String :=
  ["manifest.json", "libralm_mcp_server.js", "package.json", "LICENSE",
   "README.md", "icon.png"]

/-- The loop body of `copy_source_files`: for each name in turn, if a
filesystem entry with that (one-component) path exists, copy it into the
staging directory as a regular file. -/
def copyLoop : List String → FS → FS
  | [], fs => fs
  | f :: rest, fs =>
      copyLoop rest (if fsExists fs [f] then insert ⟨["bundle", f], false⟩ fs else fs)

/-- Embeds `copy_source_files`: copy each existing allow-listed file into `bundle/`. -/
def copy_source_files (fs : FS) : FS :=
  copyLoop files_to_copy fs

/-- The six required manifest keys, in the order the code checks them. -/
def requiredFields : List String :=
  ["dxt_version", "name", "version", "description", "author", "server"]

/-- The `for field in required` loop of `validate_manifest`: returns validity
together with the missing field reported on first failure (if any). -/
def checkFields : List String → List String → Bool × Option String
  | [], _ => (true, none)
  | f :: rest, keys =>
      if keys.contains f then checkFields rest keys else (false, some f)

/-- Embeds `validate_manifest`: the parsed manifest is modelled as `some keys`
(parse succeeded, `keys` are its top-level keys) or `none` (reading or
parsing raised); the second component is the missing field the function
prints, `none` when it prints a parse error or succeeds. -/
def validate_manifest (m : Option (List String)) : Bool × Option String :=
  match m with
  | none => (false, none)
  | some keys => checkFields requiredFields keys

/-! ### Dependency pruning (the cleanup phase of `install_dependencies`) -/

/-- The fixed prune patterns. -/
def patterns_to_remove : List String :=
  ["*.md", "*.txt", "test", "tests", "example", "examples", ".github"]

/-- Interpretation of `fnmatch` restricted to the shapes occurring in `patterns_to_remove`:
a leading `*` matches any (possibly empty) run of characters, so `*.md`
matches exactly the names ending in `.md`; a pattern without metacharacters
matches only itself. -/
def fnmatchSimple (pat name : String) : Bool :=
  if pat.startsWith "*" then name.endsWith (pat.drop 1) else name = pat

/-- The final name component of a path (what `Path.name` returns). -/
def nameOf (p : FilePathM) : String :=
  (p.getLast?).getD ""

/-- Tests that `p` lies strictly inside `bundle/node_modules` (what
`Path("bundle/node_modules").rglob(...)` can yield). -/
def underNodeModules (p : FilePathM) : Bool :=
  nodeModulesDir.isPrefixOf p && decide (p ≠ nodeModulesDir)

/-- The entries `Path("bundle/node_modules").rglob(pat)` yields on `fs`. -/
def pruneMatches (pat : String) (fs : FS) : FS :=
  fs.filter (fun m => underNodeModules m.path && fnmatchSimple pat (nameOf m.path))

/-- Removal of a single match `m`: a matched directory is removed recursively
(`shutil.rmtree`), a matched file individually (`path.unlink`). -/
def removesEntry (m e : Entry) : Bool :=
  if m.isDir then m.path.isPrefixOf e.path else e == m

/-- One pass of the prune loop: remove every entry taken out by some match of
`pat` found in `fs`. -/
def prunePattern (fs : FS) (pat : String) : FS :=
  fs.filter (fun e => ¬ ((pruneMatches pat fs).filter (fun m => removesEntry m e)).Nonempty)

/-- The `for pattern in patterns_to_remove` loop. -/
def pruneLoop : List String → FS → FS
  | [], fs => fs
  | pat :: rest, fs => pruneLoop rest (prunePattern fs pat)

/-- The whole cleanup phase of `install_dependencies`. -/
def pruneDependencies (fs : FS) : FS :=
  pruneLoop patterns_to_remove fs

/-! ### `install_dependencies` and the working directory -/

/-- Process state: the filesystem and the process working directory. -/
structure BuildState where
  fs : FS
  cwd : FilePathM
deriving DecidableEq

/-- How the `npm install --production` subprocess behaved: it succeeded and
installed the given tree of entries (paths relative to the staging
directory), or it exited non-zero (`CalledProcessError`), or `subprocess.run`
itself raised some other exception (for example `FileNotFoundError` when
`npm` is absent). -/
inductive NpmOutcome
  | success (installed : Finset Entry)
  | nonzeroExit
  | raised
deriving DecidableEq

/-- Outcome of a modelled Python call: normal return, an ordinary `Exception`
escaping, or a `SystemExit` (raised by `sys.exit`) escaping.  The carried
state is the process state at the moment the call ends. -/
inductive StepOut
  | ok (s : BuildState)
  | exc (s : BuildState)
  | sysExit (code : Nat) (s : BuildState)
deriving DecidableEq

/-- The process state carried by an outcome. -/
def StepOut.state : StepOut → BuildState
  | .ok s => s
  | .exc s => s
  | .sysExit _ s => s

/-- Model of `os.chdir`. -/
def chdirTo (s : BuildState) (p : FilePathM) : BuildState :=
  ⟨s.fs, p⟩

/-- The `try` body of `install_dependencies`: run `npm install --production`
in the current directory (the staging directory); on non-zero exit the
`except` clause calls `sys.exit(1)`. -/
def npmTry (npm : NpmOutcome) (s : BuildState) : StepOut :=
  match npm with
  | .success installed =>
      .ok ⟨s.fs ∪ installed.image (fun e => ⟨"bundle" :: e.path, e.isDir⟩), s.cwd⟩
  | .nonzeroExit => .sysExit 1 s
  | .raised => .exc s

/-- The `finally` clause: `os.chdir(original_dir)` runs on every exit path of
the `try` statement. -/
def restoreCwd (orig : FilePathM) : StepOut → StepOut
  | .ok s => .ok (chdirTo s orig)
  | .exc s => .exc (chdirTo s orig)
  | .sysExit c s => .sysExit c (chdirTo s orig)

/-- Embeds `install_dependencies`: copy `package.json` into the staging directory
(raises `FileNotFoundError` when it is absent — before any `chdir`), save the
original working directory, `chdir` into staging, run the install under
`try/except/finally`, and on normal completion prune the installed tree. -/
def install_dependencies (npm : NpmOutcome) (s : BuildState) : StepOut :=
  if fsExists s.fs ["package.json"] then
    let s1 : BuildState := ⟨insert ⟨["bundle", "package.json"], false⟩ s.fs, s.cwd⟩
    let orig := s1.cwd
    let s2 := chdirTo s1 (orig ++ ["bundle"])
    match restoreCwd orig (npmTry npm s2) with
    | .ok s3 => .ok ⟨pruneDependencies s3.fs, s3.cwd⟩
    | r => r
  else .exc s

/-! ### The archiver -/

/-- Zip compression method; `ZIP_DEFLATED` is deflate. -/
inductive Compression
  | stored
  | deflated
deriving DecidableEq, Repr

/-- One entry written into the archive: its entry name (`arcname`) and its
compression method. -/
structure ArcEntry where
  name : FilePathM
  compression : Compression
deriving DecidableEq, Repr

/-- A path is absolute when it begins with the empty component a leading
path separator splits off. -/
def isAbsolutePath (p : FilePathM) : Bool :=
  p.head? = some ""

/-- Model of `os.path.relpath(file_path, "bundle")` for a path below `bundle`: drop
the leading `bundle` component. -/
def relpathFromBundle (p : FilePathM) : FilePathM :=
  p.drop 1

/-- Embeds `create_dxt_package`: walk `bundle`, write every regular file strictly
below it into the archive under its path relative to `bundle`, with deflate
compression; on the filesystem the archive file itself appears.  Returns the
new filesystem and the set of archive entries written. -/
def create_dxt_package (fs : FS) : FS × Finset ArcEntry :=
  (insert ⟨dxtPath, false⟩ fs,
   (fs.filter (fun e => e.isDir = false && bundleDir.isPrefixOf e.path
        && decide (e.path ≠ bundleDir))).image
     (fun e => ⟨relpathFromBundle e.path, .deflated⟩))

/-! ### `check_node` and `main` -/

/-- How `subprocess.run(["node", "--version"], ...)` behaved. -/
inductive NodeOutcome
  | exitZero
  | exitNonzero
  | notFound
deriving DecidableEq

/-- Embeds `check_node`: true exactly when the version query ran and returned 0. -/
def check_node : NodeOutcome → Bool
  | .exitZero => true
  | .exitNonzero => false
  | .notFound => false

/-- Everything `main` cannot decide by itself: the node subprocess, the
parsed manifest, and the npm subprocess. -/
structure Oracle where
  node : NodeOutcome
  manifest : Option (List String)
  npm : NpmOutcome

/-- Embeds `main`: prerequisite check, manifest validation (each failure calls
`sys.exit(1)` before any filesystem mutation), then the `try` block running
clean → create staging → copy sources → install → archive → remove staging;
an ordinary exception from the block is caught and turned into exit code 1,
a `SystemExit` propagates.  Returns the process exit code and final state. -/
def runMain (o : Oracle) (s0 : BuildState) : Nat × BuildState :=
  if check_node o.node = false then (1, s0)
  else if (validate_manifest o.manifest).1 = false then (1, s0)
  else
    let s1 : BuildState := ⟨clean_build s0.fs, s0.cwd⟩
    let s2 : BuildState := ⟨create_bundle_dir s1.fs, s1.cwd⟩
    let s3 : BuildState := ⟨copy_source_files s2.fs, s2.cwd⟩
    match install_dependencies o.npm s3 with
    | .exc s => (1, s)
    | .sysExit c s => (c, s)
    | .ok s4 =>
        let s5 : BuildState := ⟨(create_dxt_package s4.fs).1, s4.cwd⟩
        let s6 : BuildState := ⟨rmtreeFS s5.fs bundleDir, s5.cwd⟩
        (0, s6)

/-- Tests whether `name` matches at least one prune pattern. -/
def matchesAnyPattern (name : String) : Bool :=
  patterns_to_remove.any (fun pat => fnmatchSimple pat name)

/-! ### Basic lemmas about the filesystem model -/

theorem fsExists_iff {fs : FS} {p : FilePathM} :
    fsExists fs p = true ↔ ∃ b, (⟨p, b⟩ : Entry) ∈ fs := by
  simp only [fsExists, decide_eq_true_eq, Finset.filter_nonempty_iff]
  constructor
  · rintro ⟨e, he, hp⟩
    exact ⟨e.isDir, by cases e with | mk q b => cases hp; exact he⟩
  · rintro ⟨b, hb⟩
    exact ⟨⟨p, b⟩, hb, rfl⟩

theorem fsExists_mono {fs fs' : FS} {p : FilePathM} (hsub : fs ⊆ fs')
    (h : fsExists fs p = true) : fsExists fs' p = true := by
  rw [fsExists_iff] at h ⊢
  obtain ⟨b, hb⟩ := h
  exact ⟨b, hsub hb⟩

theorem fsExists_rmtree_bundle_dxt (fs : FS) :
    fsExists (rmtreeFS fs bundleDir) dxtPath = fsExists fs dxtPath := by
  by_cases h : fsExists fs dxtPath = true
  · rw [h]
    rw [fsExists_iff] at h
    obtain ⟨b, hb⟩ := h
    refine fsExists_iff.mpr ⟨b, Finset.mem_filter.mpr ⟨hb, ?_⟩⟩
    show ¬ List.isPrefixOf bundleDir dxtPath = true
    decide
  · rw [Bool.not_eq_true] at h
    rw [h]
    by_contra hc
    rw [Bool.not_eq_false] at hc
    have := fsExists_mono (Finset.filter_subset _ _) hc
    rw [h] at this
    exact absurd this (by decide)

theorem mem_clean_build {fs : FS} {e : Entry} :
    e ∈ clean_build fs ↔
      e ∈ fs ∧ (fsExists fs bundleDir = true → bundleDir.isPrefixOf e.path = false)
        ∧ (fsExists fs dxtPath = true → e ≠ ⟨dxtPath, false⟩) := by
  rw [clean_build]
  by_cases hb : fsExists fs bundleDir = true
  · rw [if_pos hb, fsExists_rmtree_bundle_dxt]
    by_cases hd : fsExists fs dxtPath = true
    · rw [if_pos hd]
      simp only [removeFileFS, rmtreeFS, Finset.mem_erase, Finset.mem_filter, hb, hd,
        forall_const, Bool.not_eq_true]
      tauto
    · rw [if_neg hd]
      simp only [rmtreeFS, Finset.mem_filter, hb, hd, forall_const, Bool.not_eq_true,
        IsEmpty.forall_iff, and_true]
      tauto
  · rw [if_neg hb]
    by_cases hd : fsExists fs dxtPath = true
    · rw [if_pos hd]
      simp only [removeFileFS, Finset.mem_erase, hb, hd, forall_const,
        IsEmpty.forall_iff, true_and]
      tauto
    · rw [if_neg hd]
      simp [hb, hd]

theorem clean_build_subset (fs : FS) : clean_build fs ⊆ fs :=
  fun _ he => (mem_clean_build.mp he).1

theorem dxt_not_mem_clean_build (fs : FS) :
    (⟨dxtPath, false⟩ : Entry) ∉ clean_build fs := by
  intro hmem
  obtain ⟨hin, _, hd⟩ := mem_clean_build.mp hmem
  exact hd (fsExists_iff.mpr ⟨false, hin⟩) rfl

theorem bundle_not_exists_clean_build (fs : FS) :
    fsExists (clean_build fs) bundleDir = false := by
  by_contra h
  rw [Bool.not_eq_false, fsExists_iff] at h
  obtain ⟨b, hb⟩ := h
  obtain ⟨hin, himp, _⟩ := mem_clean_build.mp hb
  have hex : fsExists fs bundleDir = true := fsExists_iff.mpr ⟨b, hin⟩
  have hfalse : List.isPrefixOf bundleDir bundleDir = false := himp hex
  exact absurd hfalse (by decide)

theorem dxt_not_exists_clean_build {fs : FS} (h : (⟨dxtPath, true⟩ : Entry) ∉ fs) :
    fsExists (clean_build fs) dxtPath = false := by
  by_contra hc
  rw [Bool.not_eq_false, fsExists_iff] at hc
  obtain ⟨b, hb⟩ := hc
  cases b
  · exact dxt_not_mem_clean_build fs hb
  · exact h (clean_build_subset fs hb)

theorem clean_build_mem_of_mem {fs : FS} {e : Entry} (he : e ∈ fs)
    (hb : bundleDir.isPrefixOf e.path = false) (hd : e.path ≠ dxtPath) :
    e ∈ clean_build fs :=
  mem_clean_build.mpr ⟨he, fun _ => hb, fun _ heq => hd (by rw [heq])⟩

theorem fsExists_clean_build_eq {fs : FS} {p : FilePathM}
    (hb : bundleDir.isPrefixOf p = false) (hd : p ≠ dxtPath) :
    fsExists (clean_build fs) p = fsExists fs p := by
  by_cases h : fsExists fs p = true
  · rw [h]
    rw [fsExists_iff] at h
    obtain ⟨b, hmem⟩ := h
    exact fsExists_iff.mpr ⟨b, clean_build_mem_of_mem hmem hb hd⟩
  · rw [Bool.not_eq_true] at h
    rw [h]
    by_contra hc
    rw [Bool.not_eq_false] at hc
    have := fsExists_mono (clean_build_subset fs) hc
    rw [h] at this
    exact absurd this (by decide)

theorem clean_build_idem (fs : FS) : clean_build (clean_build fs) = clean_build fs := by
  apply Finset.ext
  intro e
  rw [mem_clean_build]
  constructor
  · exact fun h => h.1
  · intro he
    refine ⟨he, fun h => ?_, fun _ heq => dxt_not_mem_clean_build fs (heq ▸ he)⟩
    rw [bundle_not_exists_clean_build] at h
    exact absurd h (by decide)

/-! ### Lemmas about `copy_source_files` -/

theorem fsExists_insert_of_ne {fs : FS} {a : Entry} {p : FilePathM} (h : a.path ≠ p) :
    fsExists (insert a fs) p = fsExists fs p := by
  by_cases hex : fsExists fs p = true
  · rw [hex]
    exact fsExists_mono (Finset.subset_insert _ _) hex
  · rw [Bool.not_eq_true] at hex
    rw [hex]
    by_contra hc
    rw [Bool.not_eq_false, fsExists_iff] at hc
    obtain ⟨c, hmem⟩ := hc
    rw [Finset.mem_insert] at hmem
    rcases hmem with heq | hmem
    · exact h (by rw [← heq])
    · have := fsExists_iff.mpr ⟨c, hmem⟩
      rw [hex] at this
      exact absurd this (by decide)

theorem fsExists_insert_bundle (fs : FS) (f g : String) (b : Bool) :
    fsExists (insert (⟨["bundle", f], b⟩ : Entry) fs) [g] = fsExists fs [g] :=
  fsExists_insert_of_ne (by simp)

theorem mem_copyLoop (l : List String) (fs : FS) (e : Entry) :
    e ∈ copyLoop l fs ↔
      e ∈ fs ∨ ∃ f ∈ l, fsExists fs [f] = true ∧ e = ⟨["bundle", f], false⟩ := by
  induction l generalizing fs with
  | nil => simp [copyLoop]
  | cons f rest ih =>
      rw [copyLoop]
      simp only [List.mem_cons]
      by_cases hf : fsExists fs [f] = true
      · rw [if_pos hf, ih]
        constructor
        · rintro (hin | ⟨g, hg, hex, he⟩)
          · rw [Finset.mem_insert] at hin
            rcases hin with he | hin
            · exact Or.inr ⟨f, Or.inl rfl, hf, he⟩
            · exact Or.inl hin
          · rw [fsExists_insert_bundle] at hex
            exact Or.inr ⟨g, Or.inr hg, hex, he⟩
        · rintro (hin | ⟨g, hg, hex, he⟩)
          · exact Or.inl (Finset.mem_insert_of_mem hin)
          · rcases hg with heq | hg
            · subst heq
              exact Or.inl (by rw [he]; exact Finset.mem_insert_self _ _)
            · exact Or.inr ⟨g, hg, by rw [fsExists_insert_bundle]; exact hex, he⟩
      · rw [if_neg hf, ih]
        constructor
        · rintro (hin | ⟨g, hg, hex, he⟩)
          · exact Or.inl hin
          · exact Or.inr ⟨g, Or.inr hg, hex, he⟩
        · rintro (hin | ⟨g, hg, hex, he⟩)
          · exact Or.inl hin
          · rcases hg with heq | hg
            · subst heq
              exact absurd hex hf
            · exact Or.inr ⟨g, hg, hex, he⟩

theorem copyLoop_subset_self (l : List String) (fs : FS) : fs ⊆ copyLoop l fs :=
  fun _ he => (mem_copyLoop l fs _).mpr (Or.inl he)

theorem fsExists_copyLoop (l : List String) (fs : FS) (g : String) :
    fsExists (copyLoop l fs) [g] = fsExists fs [g] := by
  induction l generalizing fs with
  | nil => rfl
  | cons f rest ih =>
      rw [copyLoop]
      split
      · rw [ih, fsExists_insert_bundle]
      · rw [ih]

/-! ### Lemmas about dependency pruning -/

theorem mem_pruneMatches {pat : String} {fs : FS} {m : Entry} :
    m ∈ pruneMatches pat fs ↔
      m ∈ fs ∧ underNodeModules m.path = true ∧ fnmatchSimple pat (nameOf m.path) = true := by
  rw [pruneMatches, Finset.mem_filter, Bool.and_eq_true]

theorem mem_prunePattern {fs : FS} {pat : String} {e : Entry} :
    e ∈ prunePattern fs pat ↔
      e ∈ fs ∧ ¬ ∃ m, m ∈ fs ∧ underNodeModules m.path = true
        ∧ fnmatchSimple pat (nameOf m.path) = true ∧ removesEntry m e = true := by
  rw [prunePattern, Finset.mem_filter]
  constructor
  · rintro ⟨he, hno⟩
    refine ⟨he, ?_⟩
    rintro ⟨m, hm, hu, hf, hr⟩
    exact hno ⟨m, Finset.mem_filter.mpr ⟨mem_pruneMatches.mpr ⟨hm, hu, hf⟩, hr⟩⟩
  · rintro ⟨he, hno⟩
    refine ⟨he, ?_⟩
    rintro ⟨m, hm⟩
    rw [Finset.mem_filter] at hm
    obtain ⟨hmm, hr⟩ := hm
    obtain ⟨hmf, hu, hf⟩ := mem_pruneMatches.mp hmm
    exact hno ⟨m, hmf, hu, hf, hr⟩

theorem pruneLoop_subset : ∀ (pats : List String) (fs : FS) {e : Entry},
    e ∈ pruneLoop pats fs → e ∈ fs
  | [], _, _, he => he
  | _ :: rest, _, _, he =>
      (mem_prunePattern.mp (pruneLoop_subset rest _ he)).1

theorem removesEntry_self (e : Entry) : removesEntry e e = true := by
  rw [removesEntry]
  split
  · rw [ List.isPrefixOf_iff_prefix]
  · exact beq_self_eq_true e

theorem removesEntry_dir_trans {m m' e : Entry} (hdir : m'.isDir = true)
    (hpre : List.isPrefixOf m'.path m.path = true) (hrem : removesEntry m e = true) :
    removesEntry m' e = true := by
  rw [removesEntry, if_pos hdir, List.isPrefixOf_iff_prefix]
  rw [ List.isPrefixOf_iff_prefix] at hpre
  rw [removesEntry] at hrem
  split at hrem
  · rw [ List.isPrefixOf_iff_prefix] at hrem
    exact hpre.trans hrem
  · rw [beq_iff_eq] at hrem
    rw [hrem]
    exact hpre

/-- Any entry removed by a match found inside `bundle/node_modules` is itself
inside `bundle/node_modules`. -/
theorem underNodeModules_of_removes {m e : Entry} (hu : underNodeModules m.path = true)
    (hrem : removesEntry m e = true) : underNodeModules e.path = true := by
  rw [underNodeModules, Bool.and_eq_true, decide_eq_true_eq,
    List.isPrefixOf_iff_prefix] at hu ⊢
  obtain ⟨hpre, hne⟩ := hu
  rw [removesEntry] at hrem
  split at hrem
  · rw [ List.isPrefixOf_iff_prefix] at hrem
    refine ⟨hpre.trans hrem, ?_⟩
    intro heq
    rw [heq] at hrem
    exact hne (hrem.eq_of_length (Nat.le_antisymm hrem.length_le hpre.length_le))
  · rw [beq_iff_eq] at hrem
    rw [hrem]
    exact ⟨hpre, hne⟩

/-- Core removal lemma: an entry of the original filesystem that some match
of some prune pattern removes is absent from the pruned filesystem. -/
theorem pruneLoop_removes : ∀ (pats : List String) (fs : FS) (e m : Entry),
    e ∈ pruneLoop pats fs → m ∈ fs → underNodeModules m.path = true →
    (∃ pat ∈ pats, fnmatchSimple pat (nameOf m.path) = true) →
    removesEntry m e = true → False
  | [], _, _, _, _, _, _, hex, _ => by
      obtain ⟨_, hp, _⟩ := hex
      exact absurd hp (List.not_mem_nil _)
  | pat :: rest, fs, e, m, he, hm, hu, hex, hrem => by
      have he' : e ∈ prunePattern fs pat := pruneLoop_subset rest _ he
      obtain ⟨hef, hno⟩ := mem_prunePattern.mp he'
      obtain ⟨p, hp, hmatch⟩ := hex
      rcases List.mem_cons.mp hp with rfl | hp
      · exact hno ⟨m, hm, hu, hmatch, hrem⟩
      · by_cases hm' : m ∈ prunePattern fs pat
        · exact pruneLoop_removes rest (prunePattern fs pat) e m he hm' hu ⟨p, hp, hmatch⟩ hrem
        · rw [mem_prunePattern] at hm'
          push_neg at hm'
          obtain ⟨m', hm'f, hu', hmatch', hrem'⟩ := hm' hm
          by_cases hdir : m'.isDir = true
          · rw [removesEntry, if_pos hdir] at hrem'
            exact hno ⟨m', hm'f, hu', hmatch', removesEntry_dir_trans hdir hrem' hrem⟩
          · rw [removesEntry, if_neg hdir, beq_iff_eq] at hrem'
            rw [← hrem'] at hmatch' hu' hm'f
            exact hno ⟨m, hm'f, hu', hmatch', hrem⟩

/-- Entries outside `bundle/node_modules` survive the whole prune loop. -/
theorem pruneLoop_outside : ∀ (pats : List String) (fs : FS) {e : Entry},
    e ∈ fs → underNodeModules e.path = false → e ∈ pruneLoop pats fs
  | [], _, _, he, _ => he
  | pat :: rest, fs, e, he, hout => by
      refine pruneLoop_outside rest _ ?_ hout
      refine mem_prunePattern.mpr ⟨he, ?_⟩
      rintro ⟨m, _, hu, _, hrem⟩
      rw [underNodeModules_of_removes hu hrem] at hout
      exact absurd hout (by decide)

/-! ### Lemmas about the assembled staging state and the `main` pipeline -/

theorem fsExists_staging_pkg (fs : FS) :
    fsExists (copy_source_files (create_bundle_dir (clean_build fs))) ["package.json"]
      = fsExists fs ["package.json"] := by
  rw [copy_source_files, fsExists_copyLoop, create_bundle_dir,
    fsExists_insert_of_ne (by decide), fsExists_clean_build_eq (by decide) (by decide)]

theorem copyLoop_not_mem_dxt (l : List String) (fs : FS)
    (h : (⟨dxtPath, false⟩ : Entry) ∉ fs) :
    (⟨dxtPath, false⟩ : Entry) ∉ copyLoop l fs := by
  intro hmem
  rw [mem_copyLoop] at hmem
  rcases hmem with hmem | ⟨g, hgl, hgex, hge⟩
  · exact h hmem
  · have hpath : dxtPath = ["bundle", g] := congrArg Entry.path hge
    have hhead : some "libralm.dxt" = some "bundle" := congrArg List.head? hpath
    exact absurd (Option.some.inj hhead) (by decide)

theorem not_mem_create_bundle_dir {fs : FS} {e : Entry} (hne : e ≠ ⟨bundleDir, true⟩)
    (h : e ∉ fs) : e ∉ create_bundle_dir fs := by
  intro hmem
  rw [create_bundle_dir, Finset.mem_insert] at hmem
  rcases hmem with hb | hmem
  · exact hne hb
  · exact h hmem

theorem dxt_not_in_staging (fs : FS) :
    (⟨dxtPath, false⟩ : Entry) ∉ copy_source_files (create_bundle_dir (clean_build fs)) := by
  rw [copy_source_files]
  exact copyLoop_not_mem_dxt _ _
    (not_mem_create_bundle_dir (by decide) (dxt_not_mem_clean_build fs))

theorem bundle_dir_in_staging (fs : FS) :
    (⟨bundleDir, true⟩ : Entry) ∈ copy_source_files (create_bundle_dir (clean_build fs)) := by
  rw [copy_source_files, mem_copyLoop, create_bundle_dir]
  exact Or.inl (Finset.mem_insert_self _ _)

theorem runMain_nonzero (o : Oracle) (s0 : BuildState)
    (hnode : check_node o.node = true) (hman : (validate_manifest o.manifest).1 = true)
    (hpkg : fsExists s0.fs ["package.json"] = true) (hnpm : o.npm = .nonzeroExit) :
    runMain o s0 =
      (1, ⟨insert ⟨["bundle", "package.json"], false⟩
             (copy_source_files (create_bundle_dir (clean_build s0.fs))), s0.cwd⟩) := by
  have hpkg3 : fsExists (copy_source_files (create_bundle_dir (clean_build s0.fs)))
      ["package.json"] = true := by rw [fsExists_staging_pkg]; exact hpkg
  rw [runMain, hnode, hman, hnpm]
  rw [if_neg (by decide : ¬ (true = false)), if_neg (by decide : ¬ (true = false))]
  unfold install_dependencies
  dsimp only
  rw [if_pos hpkg3]
  rfl

theorem runMain_raised (o : Oracle) (s0 : BuildState)
    (hnode : check_node o.node = true) (hman : (validate_manifest o.manifest).1 = true)
    (hpkg : fsExists s0.fs ["package.json"] = true) (hnpm : o.npm = .raised) :
    runMain o s0 =
      (1, ⟨insert ⟨["bundle", "package.json"], false⟩
             (copy_source_files (create_bundle_dir (clean_build s0.fs))), s0.cwd⟩) := by
  have hpkg3 : fsExists (copy_source_files (create_bundle_dir (clean_build s0.fs)))
      ["package.json"] = true := by rw [fsExists_staging_pkg]; exact hpkg
  rw [runMain, hnode, hman, hnpm]
  rw [if_neg (by decide : ¬ (true = false)), if_neg (by decide : ¬ (true = false))]
  unfold install_dependencies
  dsimp only
  rw [if_pos hpkg3]
  rfl

theorem runMain_success (o : Oracle) (s0 : BuildState) (installed : Finset Entry)
    (hnode : check_node o.node = true) (hman : (validate_manifest o.manifest).1 = true)
    (hpkg : fsExists s0.fs ["package.json"] = true) (hnpm : o.npm = .success installed) :
    runMain o s0 =
      (0, ⟨rmtreeFS
             (insert ⟨dxtPath, false⟩
               (pruneDependencies
                 (insert ⟨["bundle", "package.json"], false⟩
                    (copy_source_files (create_bundle_dir (clean_build s0.fs)))
                  ∪ installed.image (fun e => ⟨"bundle" :: e.path, e.isDir⟩))))
             bundleDir, s0.cwd⟩) := by
  have hpkg3 : fsExists (copy_source_files (create_bundle_dir (clean_build s0.fs)))
      ["package.json"] = true := by rw [fsExists_staging_pkg]; exact hpkg
  rw [runMain, hnode, hman, hnpm]
  rw [if_neg (by decide : ¬ (true = false)), if_neg (by decide : ¬ (true = false))]
  unfold install_dependencies
  dsimp only
  rw [if_pos hpkg3]
  dsimp only [npmTry, restoreCwd, chdirTo, create_dxt_package]

theorem runMain_missing_pkg (o : Oracle) (s0 : BuildState)
    (hnode : check_node o.node = true) (hman : (validate_manifest o.manifest).1 = true)
    (hpkg : fsExists s0.fs ["package.json"] = false) :
    runMain o s0 =
      (1, ⟨copy_source_files (create_bundle_dir (clean_build s0.fs)), s0.cwd⟩) := by
  have hpkg3 : ¬ fsExists (copy_source_files (create_bundle_dir (clean_build s0.fs)))
      ["package.json"] = true := by
    rw [fsExists_staging_pkg, hpkg]
    decide
  rw [runMain, hnode, hman]
  rw [if_neg (by decide : ¬ (true = false)), if_neg (by decide : ¬ (true = false))]
  unfold install_dependencies
  dsimp only
  rw [if_neg hpkg3]

attribute [irreducible] copyLoop pruneMatches prunePattern pruneLoop pruneDependencies

theorem checkFields_eq (l keys : List String) :
    checkFields l keys =
      ((l.find? (fun g => !keys.contains g)).isNone, l.find? (fun g => !keys.contains g)) := by
  induction l with
  | nil => rfl
  | cons f rest ih =>
      rw [checkFields]
      by_cases h : keys.contains f = true
      · have hmem : f ∈ keys := by simpa using h
        rw [if_pos h, List.find?_cons_of_neg _ (by simp [hmem]), ih]
      · rw [if_neg h, List.find?_cons_of_pos]
        · rfl
        · rw [Bool.not_eq_true] at h
          rw [h]
          rfl

theorem runMain_early (o : Oracle) (s0 : BuildState)
    (h : check_node o.node = false ∨ (validate_manifest o.manifest).1 = false) :
    runMain o s0 = (1, s0) := by
  rw [runMain]
  rcases h with h | h
  · rw [if_pos h]
  · by_cases hn : check_node o.node = false
    · rw [if_pos hn]
    · rw [if_neg hn, if_pos h]

/-! ### The claims -/

/-- C1: `install_dependencies` leaves the process working directory exactly
as it found it on every exit path: when the install subprocess succeeds, when
it exits non-zero (the `sys.exit` path), when `subprocess.run` raises any
other exception, and on the `FileNotFoundError` path raised before the
directory is changed. -/
theorem install_dependencies_restores_cwd (npm : NpmOutcome) (s : BuildState) :
    (install_dependencies npm s).state.cwd = s.cwd := by
  unfold install_dependencies
  dsimp only
  split
  · cases npm <;> rfl
  · rfl

/-- C2: a successfully parsed manifest missing at least one of the six
required keys makes `validate_manifest` return invalid, report exactly the
first missing key in the fixed checking order (the `List.find?` of the first
key not contained, a single key, never an aggregate), and `main` then exits
with code 1. -/
theorem validate_manifest_missing_field (keys : List String) (o : Oracle) (s : BuildState)
    (hnode : check_node o.node = true) (hman : o.manifest = some keys)
    (f : String) (hf : f ∈ requiredFields) (hmiss : keys.contains f = false) :
    (validate_manifest (some keys)).1 = false ∧
    (validate_manifest (some keys)).2 = requiredFields.find? (fun g => !keys.contains g) ∧
    (runMain o s).1 = 1 := by
  have hsome : (requiredFields.find? (fun g => !keys.contains g)).isSome = true := by
    rw [List.find?_isSome]
    refine ⟨f, hf, ?_⟩
    rw [hmiss]
    rfl
  have hval : validate_manifest (some keys) =
      ((requiredFields.find? (fun g => !keys.contains g)).isNone,
       requiredFields.find? (fun g => !keys.contains g)) := by
    rw [validate_manifest]
    exact checkFields_eq requiredFields keys
  have hfst : (validate_manifest (some keys)).1 = false := by
    rw [hval]
    obtain ⟨g, hg⟩ := Option.isSome_iff_exists.mp hsome
    rw [hg]
    rfl
  refine ⟨hfst, by rw [hval], ?_⟩
  rw [runMain, hnode, hman, hfst]
  rw [if_neg (by decide : ¬ (true = false)), if_pos rfl]

/-- C6: `clean_build` removes the staging directory and the previous archive
when they exist and succeeds when they are absent: afterwards neither the
staging directory nor the archive exists (the archive path assumed not to be
a directory), and running it twice equals running it once. -/
theorem clean_build_spec (fs : FS) (h : (⟨dxtPath, true⟩ : Entry) ∉ fs) :
    fsExists (clean_build fs) bundleDir = false ∧
    fsExists (clean_build fs) dxtPath = false ∧
    clean_build (clean_build fs) = clean_build fs :=
  ⟨bundle_not_exists_clean_build fs, dxt_not_exists_clean_build h, clean_build_idem fs⟩

theorem clean_build_spec_witness :
    fsExists (clean_build {⟨["bundle"], true⟩, ⟨["bundle", "x.js"], false⟩,
        ⟨["libralm.dxt"], false⟩, ⟨["manifest.json"], false⟩}) bundleDir = false ∧
    fsExists (clean_build {⟨["bundle"], true⟩, ⟨["bundle", "x.js"], false⟩,
        ⟨["libralm.dxt"], false⟩, ⟨["manifest.json"], false⟩}) dxtPath = false ∧
    clean_build (clean_build {⟨["bundle"], true⟩, ⟨["bundle", "x.js"], false⟩,
        ⟨["libralm.dxt"], false⟩, ⟨["manifest.json"], false⟩}) =
      clean_build {⟨["bundle"], true⟩, ⟨["bundle", "x.js"], false⟩,
        ⟨["libralm.dxt"], false⟩, ⟨["manifest.json"], false⟩} :=
  clean_build_spec _ (by decide)

/-- C7: `copy_source_files` puts into the staging directory exactly the
allow-listed files that exist in the working directory (each as the regular
file `bundle/<name>`), skips each absent one, and adds nothing else. -/
theorem copy_source_files_spec (fs : FS) (e : Entry) :
    e ∈ copy_source_files fs ↔
      e ∈ fs ∨ ∃ f ∈ files_to_copy, fsExists fs [f] = true ∧ e = ⟨["bundle", f], false⟩ := by
  rw [copy_source_files]
  exact mem_copyLoop files_to_copy fs e

/-- C9: when the prerequisite check or the manifest validation fails, `main`
exits with code 1 before the clean stage, leaving the state (including any
pre-existing archive and staging directory) entirely unchanged. -/
theorem early_failure_preserves_state (o : Oracle) (s0 : BuildState)
    (h : check_node o.node = false ∨ (validate_manifest o.manifest).1 = false) :
    runMain o s0 = (1, s0) :=
  runMain_early o s0 h

theorem early_failure_preserves_state_witness :
    runMain ⟨.notFound, some requiredFields, .nonzeroExit⟩
        ⟨{⟨["libralm.dxt"], false⟩, ⟨["bundle"], true⟩}, ["home"]⟩ =
      (1, ⟨{⟨["libralm.dxt"], false⟩, ⟨["bundle"], true⟩}, ["home"]⟩) :=
  early_failure_preserves_state _ _ (Or.inl rfl)

theorem validate_manifest_missing_field_witness :
    (validate_manifest (some ["dxt_version"])).1 = false ∧
    (validate_manifest (some ["dxt_version"])).2
      = requiredFields.find? (fun g => !(["dxt_version"].contains g)) ∧
    (runMain ⟨.exitZero, some ["dxt_version"], .nonzeroExit⟩ ⟨∅, []⟩).1 = 1 :=
  validate_manifest_missing_field ["dxt_version"]
    ⟨.exitZero, some ["dxt_version"], .nonzeroExit⟩ ⟨∅, []⟩ rfl rfl
    "name" (by decide) (by decide)

theorem not_mem_insert_entry {fs : FS} {a e : Entry} (hne : e ≠ a) (h : e ∉ fs) :
    e ∉ insert a fs := by
  intro hmem
  rw [Finset.mem_insert] at hmem
  rcases hmem with h1 | h1
  · exact hne h1
  · exact h h1

theorem rmtree_bundle_no_bundle (fs : FS) :
    ∀ e ∈ rmtreeFS fs bundleDir, List.isPrefixOf bundleDir e.path = false := by
  intro e hmem
  rw [rmtreeFS, Finset.mem_filter] at hmem
  have h2 := hmem.2
  rw [Bool.not_eq_true] at h2
  exact h2

theorem fsExists_rmtree_bundle_self (fs : FS) :
    fsExists (rmtreeFS fs bundleDir) bundleDir = false := by
  by_contra hc
  rw [Bool.not_eq_false, fsExists_iff] at hc
  obtain ⟨b, hb⟩ := hc
  have h3 : List.isPrefixOf bundleDir bundleDir = false :=
    rmtree_bundle_no_bundle fs _ hb
  exact absurd h3 (by decide)

theorem dxt_mem_rmtree_insert (fs : FS) :
    (⟨dxtPath, false⟩ : Entry) ∈ rmtreeFS (insert ⟨dxtPath, false⟩ fs) bundleDir := by
  rw [rmtreeFS, Finset.mem_filter]
  exact ⟨Finset.mem_insert_self _ _, by decide⟩

/-- C4: if the npm install subprocess exits non-zero, the whole build
terminates with exit code 1, the final filesystem does not contain the
archive file (the archiving stage is never reached and the clean stage had
already removed any previous archive), and the original working directory is
restored. -/
theorem npm_failure_aborts_build (o : Oracle) (s0 : BuildState)
    (hnode : check_node o.node = true) (hman : (validate_manifest o.manifest).1 = true)
    (hpkg : fsExists s0.fs ["package.json"] = true) (hnpm : o.npm = .nonzeroExit) :
    (runMain o s0).1 = 1 ∧
    (⟨dxtPath, false⟩ : Entry) ∉ (runMain o s0).2.fs ∧
    (runMain o s0).2.cwd = s0.cwd := by
  rw [runMain_nonzero o s0 hnode hman hpkg hnpm]
  exact ⟨rfl, not_mem_insert_entry (by decide) (dxt_not_in_staging s0.fs), rfl⟩

theorem npm_failure_aborts_build_witness :
    (runMain ⟨.exitZero, some ["dxt_version", "name", "version", "description",
        "author", "server"], .nonzeroExit⟩
      ⟨{⟨["package.json"], false⟩, ⟨["libralm.dxt"], false⟩}, ["home"]⟩).1 = 1 ∧
    (⟨dxtPath, false⟩ : Entry) ∉ (runMain ⟨.exitZero, some ["dxt_version", "name",
        "version", "description", "author", "server"], .nonzeroExit⟩
      ⟨{⟨["package.json"], false⟩, ⟨["libralm.dxt"], false⟩}, ["home"]⟩).2.fs ∧
    (runMain ⟨.exitZero, some ["dxt_version", "name", "version", "description",
        "author", "server"], .nonzeroExit⟩
      ⟨{⟨["package.json"], false⟩, ⟨["libralm.dxt"], false⟩}, ["home"]⟩).2.cwd = ["home"] :=
  npm_failure_aborts_build _ _ rfl (by decide) (by decide) rfl

/-- C5: after the pruning phase, no entry strictly inside
`bundle/node_modules` whose name matches any prune pattern remains; a matched
directory is removed together with its whole subtree; entries outside
`bundle/node_modules` are never touched; and pruning only ever removes
entries. -/
theorem prune_dependencies_spec (fs : FS) :
    (∀ e ∈ pruneDependencies fs, underNodeModules e.path = true →
       matchesAnyPattern (nameOf e.path) = false) ∧
    (∀ m ∈ fs, underNodeModules m.path = true → m.isDir = true →
       matchesAnyPattern (nameOf m.path) = true →
       ∀ e ∈ pruneDependencies fs, List.isPrefixOf m.path e.path = false) ∧
    (∀ e ∈ fs, underNodeModules e.path = false → e ∈ pruneDependencies fs) ∧
    pruneDependencies fs ⊆ fs := by
  refine ⟨?_, ?_, ?_, ?_⟩
  · intro e he hu
    by_contra hmatch
    rw [Bool.not_eq_false, matchesAnyPattern, List.any_eq_true] at hmatch
    obtain ⟨pat, hp, hm⟩ := hmatch
    rw [pruneDependencies] at he
    exact pruneLoop_removes patterns_to_remove fs e e he (pruneLoop_subset _ _ he) hu
      ⟨pat, hp, hm⟩ (removesEntry_self e)
  · intro m hm hu hdir hmatch e he
    by_contra hpre
    rw [Bool.not_eq_false] at hpre
    rw [matchesAnyPattern, List.any_eq_true] at hmatch
    obtain ⟨pat, hp, hmp⟩ := hmatch
    rw [pruneDependencies] at he
    refine pruneLoop_removes patterns_to_remove fs e m he hm hu ⟨pat, hp, hmp⟩ ?_
    rw [removesEntry, if_pos hdir]
    exact hpre
  · intro e he hout
    rw [pruneDependencies]
    exact pruneLoop_outside patterns_to_remove fs he hout
  · intro e he
    rw [pruneDependencies] at he
    exact pruneLoop_subset _ _ he

theorem prune_dependencies_spec_witness :
    (⟨["bundle", "README.md"], false⟩ : Entry) ∈
      pruneDependencies {⟨["bundle", "README.md"], false⟩,
        ⟨["bundle", "node_modules", "foo", "README.md"], false⟩} :=
  (prune_dependencies_spec {⟨["bundle", "README.md"], false⟩,
      ⟨["bundle", "node_modules", "foo", "README.md"], false⟩}).2.2.1
    _ (by decide) (by decide)

/-- C8: every run that exits with code 0 leaves no entry of the staging
directory behind (in particular the staging directory no longer exists) and
leaves the archive file in place — so a following run starts with no staging
directory and again produces a single archive; a run that fails after the
staging directory was created (the npm install exiting non-zero or raising)
exits 1 and leaves the staging directory behind. -/
theorem build_success_idempotent (o : Oracle) (s0 : BuildState) :
    ((runMain o s0).1 = 0 →
       (∀ e ∈ (runMain o s0).2.fs, List.isPrefixOf bundleDir e.path = false) ∧
       fsExists (runMain o s0).2.fs bundleDir = false ∧
       (⟨dxtPath, false⟩ : Entry) ∈ (runMain o s0).2.fs) ∧
    (check_node o.node = true → (validate_manifest o.manifest).1 = true →
       fsExists s0.fs ["package.json"] = true →
       (o.npm = .nonzeroExit ∨ o.npm = .raised) →
       (runMain o s0).1 = 1 ∧ (⟨bundleDir, true⟩ : Entry) ∈ (runMain o s0).2.fs) := by
  constructor
  · intro hzero
    by_cases hnode : check_node o.node = true
    · by_cases hman : (validate_manifest o.manifest).1 = true
      · by_cases hpkg : fsExists s0.fs ["package.json"] = true
        · cases hnpm : o.npm with
          | success installed =>
              rw [runMain_success o s0 installed hnode hman hpkg hnpm]
              exact ⟨rmtree_bundle_no_bundle _, fsExists_rmtree_bundle_self _,
                dxt_mem_rmtree_insert _⟩
          | nonzeroExit =>
              rw [runMain_nonzero o s0 hnode hman hpkg hnpm] at hzero
              have h10 : (1 : Nat) = 0 := hzero
              exact absurd h10 (by decide)
          | raised =>
              rw [runMain_raised o s0 hnode hman hpkg hnpm] at hzero
              have h10 : (1 : Nat) = 0 := hzero
              exact absurd h10 (by decide)
        · rw [Bool.not_eq_true] at hpkg
          rw [runMain_missing_pkg o s0 hnode hman hpkg] at hzero
          have h10 : (1 : Nat) = 0 := hzero
          exact absurd h10 (by decide)
      · rw [Bool.not_eq_true] at hman
        rw [runMain_early o s0 (Or.inr hman)] at hzero
        have h10 : (1 : Nat) = 0 := hzero
        exact absurd h10 (by decide)
    · rw [Bool.not_eq_true] at hnode
      rw [runMain_early o s0 (Or.inl hnode)] at hzero
      have h10 : (1 : Nat) = 0 := hzero
      exact absurd h10 (by decide)
  · intro hnode hman hpkg hfail
    rcases hfail with hnpm | hnpm
    · rw [runMain_nonzero o s0 hnode hman hpkg hnpm]
      exact ⟨rfl, Finset.mem_insert_of_mem (bundle_dir_in_staging s0.fs)⟩
    · rw [runMain_raised o s0 hnode hman hpkg hnpm]
      exact ⟨rfl, Finset.mem_insert_of_mem (bundle_dir_in_staging s0.fs)⟩

theorem build_success_idempotent_witness :
    (∀ e ∈ (runMain ⟨.exitZero, some ["dxt_version", "name", "version", "description",
        "author", "server"], .success ∅⟩
        ⟨{⟨["package.json"], false⟩}, ["home"]⟩).2.fs,
       List.isPrefixOf bundleDir e.path = false) ∧
    fsExists (runMain ⟨.exitZero, some ["dxt_version", "name", "version", "description",
        "author", "server"], .success ∅⟩
        ⟨{⟨["package.json"], false⟩}, ["home"]⟩).2.fs bundleDir = false ∧
    (⟨dxtPath, false⟩ : Entry) ∈ (runMain ⟨.exitZero, some ["dxt_version", "name",
        "version", "description", "author", "server"], .success ∅⟩
        ⟨{⟨["package.json"], false⟩}, ["home"]⟩).2.fs := by
  have h := build_success_idempotent
    ⟨.exitZero, some ["dxt_version", "name", "version", "description",
        "author", "server"], .success ∅⟩
    ⟨{⟨["package.json"], false⟩}, ["home"]⟩
  have hzero : (runMain ⟨.exitZero, some ["dxt_version", "name", "version",
      "description", "author", "server"], .success ∅⟩
      ⟨{⟨["package.json"], false⟩}, ["home"]⟩).1 = 0 := by
    rw [runMain_success ⟨.exitZero, some ["dxt_version", "name", "version",
      "description", "author", "server"], .success ∅⟩
      ⟨{⟨["package.json"], false⟩}, ["home"]⟩ ∅ rfl (by decide) (by decide) rfl]
  exact h.1 hzero

/-- C10: when `package.json` is absent, `copy_source_files` still completes
(skipping it), `install_dependencies` raises on its unconditional copy of
`package.json` into staging, the exception is caught at the top level so the
process exits 1, and the partially populated staging directory (the bundle
directory with every allow-listed file that did exist) is left behind. -/
theorem missing_package_json_fails (o : Oracle) (s0 : BuildState)
    (hnode : check_node o.node = true) (hman : (validate_manifest o.manifest).1 = true)
    (hpkg : fsExists s0.fs ["package.json"] = false) :
    (runMain o s0).1 = 1 ∧
    install_dependencies o.npm
        ⟨copy_source_files (create_bundle_dir (clean_build s0.fs)), s0.cwd⟩
      = .exc ⟨copy_source_files (create_bundle_dir (clean_build s0.fs)), s0.cwd⟩ ∧
    (runMain o s0).2.fs = copy_source_files (create_bundle_dir (clean_build s0.fs)) ∧
    (⟨bundleDir, true⟩ : Entry) ∈ (runMain o s0).2.fs ∧
    (∀ f ∈ files_to_copy, fsExists s0.fs [f] = true →
       (⟨["bundle", f], false⟩ : Entry) ∈ (runMain o s0).2.fs) := by
  have hpkg3 : ¬ fsExists (copy_source_files (create_bundle_dir (clean_build s0.fs)))
      ["package.json"] = true := by
    rw [fsExists_staging_pkg, hpkg]
    decide
  have hinst : install_dependencies o.npm
      ⟨copy_source_files (create_bundle_dir (clean_build s0.fs)), s0.cwd⟩
      = .exc ⟨copy_source_files (create_bundle_dir (clean_build s0.fs)), s0.cwd⟩ := by
    unfold install_dependencies
    dsimp only
    rw [if_neg hpkg3]
  rw [runMain_missing_pkg o s0 hnode hman hpkg]
  refine ⟨rfl, hinst, rfl, bundle_dir_in_staging s0.fs, ?_⟩
  intro f hf hex
  rw [copy_source_files, mem_copyLoop]
  refine Or.inr ⟨f, hf, ?_, rfl⟩
  have hfl : f ∈ files_to_copy := hf
  rw [files_to_copy] at hfl
  simp only [List.mem_cons, List.not_mem_nil, or_false] at hfl
  rcases hfl with rfl | rfl | rfl | rfl | rfl | rfl
  · rw [create_bundle_dir, fsExists_insert_of_ne (by decide),
      fsExists_clean_build_eq (by decide) (by decide)]
    exact hex
  · rw [create_bundle_dir, fsExists_insert_of_ne (by decide),
      fsExists_clean_build_eq (by decide) (by decide)]
    exact hex
  · rw [create_bundle_dir, fsExists_insert_of_ne (by decide),
      fsExists_clean_build_eq (by decide) (by decide)]
    exact hex
  · rw [create_bundle_dir, fsExists_insert_of_ne (by decide),
      fsExists_clean_build_eq (by decide) (by decide)]
    exact hex
  · rw [create_bundle_dir, fsExists_insert_of_ne (by decide),
      fsExists_clean_build_eq (by decide) (by decide)]
    exact hex
  · rw [create_bundle_dir, fsExists_insert_of_ne (by decide),
      fsExists_clean_build_eq (by decide) (by decide)]
    exact hex

theorem missing_package_json_fails_witness :
    (runMain ⟨.exitZero, some ["dxt_version", "name", "version", "description",
        "author", "server"], .success ∅⟩ ⟨{⟨["manifest.json"], false⟩}, []⟩).1 = 1 ∧
    (⟨bundleDir, true⟩ : Entry) ∈ (runMain ⟨.exitZero, some ["dxt_version", "name",
        "version", "description", "author", "server"], .success ∅⟩
        ⟨{⟨["manifest.json"], false⟩}, []⟩).2.fs := by
  have h := missing_package_json_fails
    ⟨.exitZero, some ["dxt_version", "name", "version", "description",
        "author", "server"], .success ∅⟩
    ⟨{⟨["manifest.json"], false⟩}, []⟩ rfl (by decide) (by decide)
  exact ⟨h.1, h.2.2.2.1⟩

/-- C3: `create_dxt_package` writes into the archive exactly the regular
files strictly below the staging directory, each under the entry name equal
to its path relative to the staging root, all with deflate compression; and
(for a filesystem whose paths have no empty component, as real paths do) no
entry name is an absolute path. -/
theorem create_dxt_package_spec (fs : FS) (hclean : ∀ e ∈ fs, "" ∉ e.path) :
    (∀ a : ArcEntry, a ∈ (create_dxt_package fs).2 ↔
       ∃ rest : FilePathM, rest ≠ [] ∧ (⟨"bundle" :: rest, false⟩ : Entry) ∈ fs
         ∧ a = ⟨rest, .deflated⟩) ∧
    (∀ a ∈ (create_dxt_package fs).2,
       isAbsolutePath a.name = false ∧ a.compression = .deflated) := by
  have hchar : ∀ a : ArcEntry, a ∈ (create_dxt_package fs).2 ↔
      ∃ rest : FilePathM, rest ≠ [] ∧ (⟨"bundle" :: rest, false⟩ : Entry) ∈ fs
        ∧ a = ⟨rest, .deflated⟩ := by
    intro a
    rw [create_dxt_package]
    dsimp only
    rw [Finset.mem_image]
    constructor
    · rintro ⟨e, he, hfe⟩
      rw [Finset.mem_filter] at he
      obtain ⟨hef, hcond⟩ := he
      rw [Bool.and_eq_true, Bool.and_eq_true] at hcond
      obtain ⟨⟨hdir, hpre⟩, hne⟩ := hcond
      rw [decide_eq_true_eq] at hdir hne
      rw [ List.isPrefixOf_iff_prefix] at hpre
      obtain ⟨t, ht⟩ := hpre
      refine ⟨t, ?_, ?_, ?_⟩
      · intro h0
        apply hne
        rw [← ht, h0]
        rfl
      · have hpe : e.path = "bundle" :: t := by rw [← ht]; rfl
        have he2 : e = ⟨"bundle" :: t, false⟩ := by
          cases e with
          | mk p d =>
              dsimp only at hpe hdir
              rw [hpe, hdir]
        rw [← he2]
        exact hef
      · rw [← hfe]
        have hpe : e.path = "bundle" :: t := by rw [← ht]; rfl
        rw [hpe]
        rfl
    · rintro ⟨rest, hne, hmem, ha⟩
      refine ⟨⟨"bundle" :: rest, false⟩, ?_, ?_⟩
      · rw [Finset.mem_filter]
        refine ⟨hmem, ?_⟩
        rw [Bool.and_eq_true, Bool.and_eq_true]
        refine ⟨⟨?_, ?_⟩, ?_⟩
        · rw [decide_eq_true_eq]
        · rw [ List.isPrefixOf_iff_prefix]
          exact ⟨rest, rfl⟩
        · rw [decide_eq_true_eq]
          intro hcon
          have htail : rest = [] := congrArg List.tail hcon
          exact hne htail
      · rw [ha]
        rfl
  refine ⟨hchar, ?_⟩
  intro a hmem
  obtain ⟨rest, hne, hmemf, ha⟩ := (hchar a).mp hmem
  subst ha
  refine ⟨?_, rfl⟩
  cases rest with
  | nil => exact absurd rfl hne
  | cons r rs =>
      rw [isAbsolutePath]
      apply decide_eq_false
      intro habs
      have hr : r = "" := Option.some.inj habs
      apply hclean _ hmemf
      rw [hr] at *
      exact List.mem_cons_of_mem _ (List.mem_cons_self "" rs)

theorem create_dxt_package_spec_witness :
    (⟨["manifest.json"], Compression.deflated⟩ : ArcEntry)
      ∈ (create_dxt_package {⟨["bundle"], true⟩, ⟨["bundle", "manifest.json"], false⟩}).2 ∧
    isAbsolutePath (⟨["manifest.json"], Compression.deflated⟩ : ArcEntry).name = false := by
  have h := create_dxt_package_spec
    {⟨["bundle"], true⟩, ⟨["bundle", "manifest.json"], false⟩} (by decide)
  have hmem := (h.1 ⟨["manifest.json"], .deflated⟩).mpr
    ⟨["manifest.json"], by decide, by decide, rfl⟩
  exact ⟨hmem, (h.2 _ hmem).1⟩

end Build
